import Mathlib

/-!
Verification of the text-chunking and rich-text table-flattening subsystem of
the hwp-parser repository (`hwpparser/workflows.py`, `hwpparser/reader.py`).

Python strings are modelled as lists of characters (`Str`); Python `int` as
`Int` (with `Nat` where the source value is provably non-negative); Python
dicts as association lists with insertion-order overwrite semantics; the
filesystem / external-converter effects of `batch_convert` as per-file outcome
records.  Every definition is translated from the source; definitions marked
"spec" restate the specification's wording for refinement comparison.
-/

namespace HwpParser

/-- A Python `str` is modelled as its sequence of code points. -/
abbrev Str := List Char

/-- Convert a Lean string literal to the model type. -/
def strL (s : String) : Str := s.data

/-- The character class stripped by Python `str.strip()` with no argument:
space, tab, newline, carriage return, vertical tab, form feed. -/
def isPyWs (c : Char) : Bool :=
  c = ' ' || c = '\t' || c = '\n' || c = '\r' || c = '\x0b' || c = '\x0c'

/-- Python `s.strip()`: drop leading and trailing whitespace. -/
def pyStrip (s : Str) : Str :=
  ((s.dropWhile isPyWs).reverse.dropWhile isPyWs).reverse

/-- `leads p s` is true when `p` is a leading segment of `s`. -/
def leads : Str → Str → Bool
  | [], _ => true
  | _ :: _, [] => false
  | a :: p, b :: s => a = b && leads p s

/-- Find the leftmost occurrence of `pat` in `s`: returns the part before the
match and the part after it.  `none` when there is no occurrence (for a
non-empty `pat`; an empty `pat` matches at the front of a non-empty `s`). -/
def splitFirst (pat : Str) : Str → Option (Str × Str)
  | [] => none
  | c :: s =>
    if leads pat (c :: s) then some ([], (c :: s).drop pat.length)
    else
      match splitFirst pat s with
      | some (a, b) => some (c :: a, b)
      | none => none

/-- Fuel-driven worker for `pySplit`; fuel `s.length + 1` always suffices for a
non-empty pattern because each match consumes at least one character. -/
def splitFuel (pat : Str) : Nat → Str → List Str
  | 0, s => [s]
  | fuel + 1, s =>
    match splitFirst pat s with
    | none => [s]
    | some (a, b) => a :: splitFuel pat fuel b

/-- Python `s.split(pat)` for a non-empty `pat` (the only way the repository
calls it; Python raises `ValueError` on an empty pattern, which
`chunk_text` below models as an error result). -/
def pySplit (pat s : Str) : List Str := splitFuel pat (s.length + 1) s

/-- `TextChunk` from `workflows.py` lines 35-44; the `metadata` dict always
holds the two integer offsets `start` and `end`, modelled as named fields
(`end` is a Lean keyword, hence `end'`). -/
structure TextChunk where
  text : Str
  index : Nat
  start : Nat
  end' : Nat
deriving Repr, DecidableEq

/-- Python `current_chunk[-chunk_overlap:] if chunk_overlap > 0 else ""`
(`workflows.py` line 89): the last `chunk_overlap` characters (the whole
string when `chunk_overlap` exceeds its length). -/
def sliceLastOv (chunk_overlap : Int) (s : Str) : Str :=
  if 0 < chunk_overlap then s.drop (s.length - chunk_overlap.toNat) else []

/-- The `for para in paragraphs` loop of `chunk_text` (`workflows.py` lines
80-101) plus the final-chunk emission.  State: remaining paragraphs, the
running buffer `current_chunk` (`cc`), the running offset `current_start`
(`cs`, a `Nat`: in the source it is a Python int that never goes negative —
the one subtraction is by the length of a segment of the minuend), and the
chunks accumulated so far. -/
def chunkLoop (chunk_size chunk_overlap : Int) (separator : Str) :
    List Str → Str → Nat → List TextChunk → List TextChunk
  | [], cc, cs, chunks =>
    -- lines 96-101: `if current_chunk.strip(): chunks.append(...)`
    if pyStrip cc = [] then chunks
    else chunks ++ [⟨pyStrip cc, chunks.length, cs, cs + cc.length⟩]
  | para :: rest, cc, cs, chunks =>
    -- line 82: `if len(current_chunk) + len(para) > chunk_size and current_chunk:`
    if (cc.length : Int) + (para.length : Int) > chunk_size ∧ cc ≠ [] then
      -- lines 83-91: flush the buffer, then re-seed it with the overlap tail,
      -- the separator and the current piece; the offset update uses the NEW
      -- buffer's length (the source reassigns `current_chunk` first).
      chunkLoop chunk_size chunk_overlap separator rest
        (sliceLastOv chunk_overlap cc ++ separator ++ para)
        (cs + (sliceLastOv chunk_overlap cc ++ separator ++ para).length
            - (sliceLastOv chunk_overlap cc).length)
        (chunks ++ [⟨pyStrip cc, chunks.length, cs, cs + cc.length⟩])
    else
      -- line 93: `current_chunk += separator + para if current_chunk else para`
      chunkLoop chunk_size chunk_overlap separator rest
        (if cc = [] then para else cc ++ separator ++ para) cs chunks

/-- `chunk_text` (`workflows.py` lines 47-104).  An empty text short-circuits
to `[]` before the split (line 69); a non-empty text with an empty separator
makes Python's `str.split` raise `ValueError: empty separator`, modelled as
an error result. -/
def chunk_text (text : Str) (chunk_size chunk_overlap : Int) (separator : Str) :
    Except Str (List TextChunk) :=
  if text = [] then .ok []
  else if separator = [] then .error (strL "empty separator")
  else .ok (chunkLoop chunk_size chunk_overlap separator (pySplit separator text) [] 0 [])

instance {ε α : Type} [DecidableEq ε] [DecidableEq α] : DecidableEq (Except ε α)
  | .ok x, .ok y => decidable_of_iff (x = y) (by simp)
  | .ok _, .error _ => .isFalse (by simp)
  | .error _, .ok _ => .isFalse (by simp)
  | .error e, .error f => decidable_of_iff (e = f) (by simp)

/-- `p` occurs contiguously inside `s`. -/
def SubSeg (p s : Str) : Prop := ∃ u v, s = u ++ p ++ v

/-- Boolean form of Python's `pat in s` substring test. -/
def containsSeg (pat s : Str) : Bool :=
  if pat = [] then true else (splitFirst pat s).isSome

/-- Outcome of one Python call inside the per-file `try` block of
`batch_convert`: it either returns, or raises an exception whose `str(e)` is
recorded. -/
inductive StepResult where
  | ok : StepResult
  | raises : Str → StepResult
deriving Repr, DecidableEq

/-- One file of a `batch_convert` run (`workflows.py` lines 200-217), with the
effectful steps abstracted to their outcomes: `path` is `str(hwp_file)`;
`conv` is the combined outcome of `relative_to`/`mkdir`/`convert` (lines
203-208); `on_progress` is the outcome of the progress callback (line 212;
`ok` when no callback is supplied). -/
structure FileJob where
  path : Str
  conv : StepResult
  on_progress : StepResult
deriving Repr, DecidableEq

/-- Python `d[k] = v` on a dict modelled as an insertion-ordered association
list: overwrite in place when the key exists, else append. -/
def dictSet (d : List (Str × Str)) (k v : Str) : List (Str × Str) :=
  if d.any (fun p => p.1 = k) then d.map (fun p => if p.1 = k then (k, v) else p)
  else d ++ [(k, v)]

/-- `BatchResult` (`workflows.py` lines 147-154). -/
structure BatchResult where
  total : Nat := 0
  success : Nat := 0
  failed : Nat := 0
  errors : List (Str × Str) := []
deriving Repr, DecidableEq

/-- `BatchResult.success_rate` (`workflows.py` lines 156-159), with Python
float division modelled as exact rational division. -/
def success_rate (r : BatchResult) : ℚ :=
  if 0 < r.total then (r.success : ℚ) / (r.total : ℚ) else 0

/-- One iteration of the `for i, hwp_file in enumerate(hwp_files)` loop of
`batch_convert`.  The `try` block runs `relative_to`/`mkdir`/`convert`
(abstracted into `conv`), then `result.success += 1`, then the progress
callback; `except Exception` increments `failed` and records `str(e)` under
`str(hwp_file)` — note that a callback exception fires AFTER `success` was
already incremented. -/
def processFile (r : BatchResult) (j : FileJob) : BatchResult :=
  match j.conv with
  | .raises m => { r with failed := r.failed + 1, errors := dictSet r.errors j.path m }
  | .ok =>
    let r' := { r with success := r.success + 1 }
    match j.on_progress with
    | .ok => r'
    | .raises m => { r' with failed := r'.failed + 1, errors := dictSet r'.errors j.path m }

/-- `batch_convert` (`workflows.py` lines 162-220): `total` is the number of
matched files (line 197); each file is processed in order by `processFile`. -/
def batch_convert (jobs : List FileJob) : BatchResult :=
  jobs.foldl processFile ⟨jobs.length, 0, 0, []⟩

mutual
/-- A node of the parsed HTML tree: a text node (`NavigableString`) or an
element with tag, attributes and children.  Attribute values are modelled as
the integers the source immediately converts them to
(`int(cell.get('rowspan', 1))`, `reader.py` lines 204-205). -/
inductive Node where
  | text : Str → Node
  | elem : Str → List (Str × Int) → NodeList → Node
/-- Children of an element (a mutual inductive so every traversal below is
structural and kernel-computable). -/
inductive NodeList where
  | nil : NodeList
  | cons : Node → NodeList → NodeList
end

/-- Build a `NodeList` from a plain list. -/
def nlOf : List Node → NodeList
  | [] => .nil
  | n :: ns => .cons n (nlOf ns)

/-- Children of a node (a text node has none). -/
def childrenOf : Node → NodeList
  | .text _ => .nil
  | .elem _ _ cs => cs

mutual
/-- All text nodes in a subtree, in document (pre-) order: the
`NavigableString` descendants seen by `elem.descendants`. -/
def textsOf : Node → List Str
  | .text s => [s]
  | .elem _ _ cs => textsOfL cs
/-- `textsOf` over a child list. -/
def textsOfL : NodeList → List Str
  | .nil => []
  | .cons n ns => textsOf n ++ textsOfL ns
end

mutual
/-- All elements whose tag satisfies `p`, searching the node itself and its
descendants in document order: BeautifulSoup `find_all` over a whole soup. -/
def findSelf (p : Str → Bool) : Node → List Node
  | .text _ => []
  | .elem t a cs => (if p t then [Node.elem t a cs] else []) ++ findL p cs
/-- `findSelf` over a child list. -/
def findL (p : Str → Bool) : NodeList → List Node
  | .nil => []
  | .cons n ns => findSelf p n ++ findL p ns
end

/-- `element.find_all(...)`: search only the strict descendants. -/
def findAllIn (p : Str → Bool) (n : Node) : List Node := findL p (childrenOf n)

mutual
/-- The first element with tag `tag`, node itself included, in document
order: `soup.body` is `firstTagN "body"` on the document root. -/
def firstTagN (tag : Str) : Node → Option Node
  | .text _ => none
  | .elem t a cs => if t = tag then some (.elem t a cs) else firstTagL tag cs
/-- `firstTagN` over a child list. -/
def firstTagL (tag : Str) : NodeList → Option Node
  | .nil => none
  | .cons n ns =>
    match firstTagN tag n with
    | some r => some r
    | none => firstTagL tag ns
end

mutual
/-- Number of `table` elements in a subtree, the node itself included. -/
def countTablesN : Node → Nat
  | .text _ => 0
  | .elem t _ cs => (if t = strL "table" then 1 else 0) + countTablesL cs
/-- `countTablesN` over a child list. -/
def countTablesL : NodeList → Nat
  | .nil => 0
  | .cons n ns => countTablesN n + countTablesL ns
end

/-- Python `" ".join`-style join with an arbitrary separator. -/
def joinSep (sep : Str) : List Str → Str
  | [] => []
  | [x] => x
  | x :: y :: xs => x ++ sep ++ joinSep sep (y :: xs)

/-- `_extract_cell_text` (`reader.py` lines 177-187): every text descendant is
stripped, carriage returns dropped and internal newlines turned into spaces;
non-empty results are joined with single spaces and the join stripped. -/
def extract_cell_text (cell : Node) : Str :=
  let texts := (textsOf cell).filterMap (fun s =>
    let t := (pyStrip s).filterMap (fun ch =>
      if ch = '\r' then none else if ch = '\n' then some ' ' else some ch)
    if t = [] then none else some t)
  pyStrip (joinSep [' '] texts)

/-- A flattener cell: `(text, rowspan, colspan)` (`reader.py` line 197). -/
abbrev Cell := Str × Int × Int

/-- `cell.get(name, 1)` over the modelled attribute list. -/
def getAttrInt (n : Node) (name : Str) : Int :=
  match n with
  | .text _ => 1
  | .elem _ attrs _ => ((attrs.find? (fun p => p.1 = name)).map (fun p => p.2)).getD 1

/-- One row of `table_data` (`reader.py` lines 199-207): the row's `td`/`th`
descendants with extracted text, rowspan and colspan. -/
def rowData (row : Node) : List Cell :=
  (findAllIn (fun t => t = strL "td" || t = strL "th") row).map
    (fun c => (extract_cell_text c, getAttrInt c (strL "rowspan"), getAttrInt c (strL "colspan")))

/-- The `cell_texts` of one row (`reader.py` lines 221-226): each cell's text
(or a single space when empty) followed by `colspan - 1` single-space
placeholder cells. -/
def cellTexts (row : List Cell) : List Str :=
  (row.map (fun c =>
    (if c.1 = [] then [' '] else c.1) :: List.replicate (c.2.2 - 1).toNat [' '])).flatten

/-- `"| " + " | ".join(cell_texts) + " |"` (`reader.py` line 228). -/
def rowLine (row : List Cell) : Str :=
  strL "| " ++ joinSep (strL " | ") (cellTexts row) ++ strL " |"

/-- `"|" + "|".join(["---" for _ in cell_texts]) + "|"` (`reader.py` line 233). -/
def sepLine (row : List Cell) : Str :=
  ['|'] ++ joinSep ['|'] ((cellTexts row).map (fun _ => strL "---")) ++ ['|']

/-- The `for i, row_cells in enumerate(table_data)` loop (`reader.py` lines
216-234): empty rows are skipped (`continue`) but still advance `i`; the
separator row is appended only after the row whose enumerate index is 0. -/
def renderLines (i : Nat) : List (List Cell) → List Str
  | [] => []
  | row :: rest =>
    if row = [] then renderLines (i + 1) rest
    else if i = 0 then rowLine row :: sepLine row :: renderLines (i + 1) rest
    else rowLine row :: renderLines (i + 1) rest

/-- `_parse_table_to_markdown` (`reader.py` lines 190-236). -/
def parse_table_to_markdown (table : Node) : Str :=
  let rows := findAllIn (fun t => t = strL "tr") table
  if rows.isEmpty then []
  else
    let table_data := rows.map rowData
    if table_data.isEmpty then []
    else joinSep ['\n'] (renderLines 0 table_data)

/-- The placeholder string `f"__TABLE_{i}__"` (`reader.py` lines 253, 270). -/
def phStr (i : Nat) : Str := strL "__TABLE_" ++ Nat.toDigits 10 i ++ strL "__"

/-- The placeholder `<div>` created at `reader.py` lines 252-254. -/
def placeholderDiv (i : Nat) : Node :=
  .elem (strL "div") [] (.cons (.text (phStr i)) .nil)

mutual
/-- The replacement pass of `_html_to_rich_text` (`reader.py` lines 247-254)
as a tree transform.  `c` counts tables in document order over the ORIGINAL
tree (the `enumerate(tables)` index of `soup.find_all('table')`, computed
before any mutation).  A table whose markdown is non-empty is replaced by the
placeholder div labelled with its own count; its nested tables are thereby
detached from the live tree (in the source their later `replace_with` mutates
only the detached subtree), so the count skips past them.  A table with empty
markdown stays in place and its descendants are transformed in place. -/
def replaceN : Node → Nat → Node × Nat
  | .text s, c => (.text s, c)
  | .elem t a cs, c =>
    if t = strL "table" then
      if parse_table_to_markdown (.elem t a cs) ≠ [] then
        (placeholderDiv c, c + 1 + countTablesL cs)
      else
        let r := replaceL cs (c + 1)
        (.elem t a r.1, r.2)
    else
      let r := replaceL cs c
      (.elem t a r.1, r.2)
/-- `replaceN` over a child list. -/
def replaceL : NodeList → Nat → NodeList × Nat
  | .nil, c => (.nil, c)
  | .cons n ns, c =>
    let r := replaceN n c
    let rs := replaceL ns r.2
    (.cons r.1 rs.1, rs.2)
end

/-- Fuel-driven worker for `replaceAll`. -/
def replaceAllFuel (pat rep : Str) : Nat → Str → Str
  | 0, s => s
  | fuel + 1, s =>
    match splitFirst pat s with
    | none => s
    | some (a, b) => a ++ rep ++ replaceAllFuel pat rep fuel b

/-- Python `s.replace(pat, rep)`: replace non-overlapping occurrences left to
right (as called here, `pat` is a non-empty placeholder). -/
def replaceAll (pat rep s : Str) : Str := replaceAllFuel pat rep (s.length + 1) s

/-- The placeholder re-substitution loop (`reader.py` lines 269-272): for each
collected markdown in order, if `__TABLE_<i>__` occurs in the text, replace
it with the markdown surrounded by blank lines.  `i` here enumerates
`table_markdowns` — the list that only received NON-empty markdowns. -/
def applyPh : Nat → List Str → Str → Str
  | _, [], t => t
  | i, md :: rest, t =>
    let t' :=
      if containsSeg (phStr i) t then
        replaceAll (phStr i) (strL "\n\n" ++ md ++ strL "\n\n") t
      else t
    applyPh (i + 1) rest t'

/-- Emit a newline run, collapsing runs of three or more to two. -/
def emitRun (k : Nat) : Str := List.replicate (if 3 ≤ k then 2 else k) '\n'

/-- Worker for `collapseNL`, carrying the length of the current newline run. -/
def collapseNLAux (k : Nat) : Str → Str
  | [] => emitRun k
  | c :: s => if c = '\n' then collapseNLAux (k + 1) s else emitRun k ++ c :: collapseNLAux 0 s

/-- `re.sub(r'\n{3,}', '\n\n', s)` (`reader.py` line 275). -/
def collapseNL (s : Str) : Str := collapseNLAux 0 s

/-- `_html_to_rich_text` (`reader.py` lines 239-277).  `tables` and their
markdowns are computed from the original tree (`find_all` runs before any
mutation, and a replacement never alters another listed table's subtree);
text is then extracted from the mutated tree, preferring the `body` subtree;
placeholders are re-substituted, newline runs collapsed, and the result
stripped. -/
def html_to_rich_text (root : Node) : Str :=
  let tables := findSelf (fun t => t = strL "table") root
  let table_markdowns := (tables.map parse_table_to_markdown).filter (fun md => md ≠ [])
  let tree := (replaceN root 0).1
  let scopeTexts :=
    match firstTagN (strL "body") tree with
    | some b => textsOf b
    | none => textsOf tree
  let text_parts := scopeTexts.filterMap (fun s =>
    let t := (pyStrip s).filter (fun ch => ch ≠ '\r')
    if t = [] then none else some t)
  let full_text := joinSep ['\n'] text_parts
  pyStrip (collapseNL (applyPh 0 table_markdowns full_text))

/-- Modelled from the spec's words for the Table Flattener rows after the
first (claim C5): every non-empty row is rendered as `| c1 | c2 | ... |`,
empty rows are skipped. -/
def specTail : List (List Cell) → List Str
  | [] => []
  | row :: rest => if row = [] then specTail rest else rowLine row :: specTail rest

/-- Modelled from the spec's words for the Table Flattener (claim C5), amended
as forced by the empty-first-row counterexample: every non-empty row becomes
`| c1 | c2 | ... |` with colspan expansion already inside `cellTexts`; a
separator row with one `---` per column of the first row is inserted
immediately after the first row only when that first row is non-empty. -/
def specLines : List (List Cell) → List Str
  | [] => []
  | row :: rest =>
    if row = [] then specTail rest
    else rowLine row :: sepLine row :: specTail rest

theorem subseg_self (p : Str) : SubSeg p p := ⟨[], [], by simp⟩

theorem subseg_nil {p : Str} (h : SubSeg p []) : p = [] := by
  obtain ⟨u, v, h⟩ := h
  rcases List.append_eq_nil.mp h.symm with ⟨hup, -⟩
  exact (List.append_eq_nil.mp hup).2

theorem subseg_append_right {p s : Str} (t : Str) (h : SubSeg p s) : SubSeg p (s ++ t) := by
  obtain ⟨u, v, rfl⟩ := h
  exact ⟨u, v ++ t, by simp⟩

theorem subseg_append_left {p s : Str} (t : Str) (h : SubSeg p s) : SubSeg p (t ++ s) := by
  obtain ⟨u, v, rfl⟩ := h
  exact ⟨t ++ u, v, by simp⟩

theorem subseg_reverse {p s : Str} (h : SubSeg p s) : SubSeg p.reverse s.reverse := by
  obtain ⟨u, v, rfl⟩ := h
  exact ⟨v.reverse, u.reverse, by simp⟩

theorem subseg_dropWhile {a : Char} {t s : Str} (ha : isPyWs a = false)
    (h : SubSeg (a :: t) s) : SubSeg (a :: t) (s.dropWhile isPyWs) := by
  obtain ⟨u, v, rfl⟩ := h
  induction u with
  | nil =>
    rw [List.nil_append, List.cons_append, List.dropWhile_cons, ha]
    exact ⟨[], v, by simp⟩
  | cons b u ih =>
    have hs : ((b :: u) ++ (a :: t) ++ v : Str) = b :: (u ++ (a :: t) ++ v) := by simp
    rw [hs, List.dropWhile_cons]
    by_cases hb : isPyWs b
    · simpa [hb] using ih
    · simp only [hb, if_neg]
      exact ⟨b :: u, v, by simp⟩

theorem dropWhile_length_le (f : Char → Bool) (l : Str) :
    (l.dropWhile f).length ≤ l.length := by
  induction l with
  | nil => simp
  | cons a t ih =>
    rw [List.dropWhile_cons]
    by_cases h : f a
    · simp only [h, if_pos]
      exact le_trans ih (by simp)
    · simp [h]

theorem length_pyStrip_le_dropWhile (s : Str) :
    (pyStrip s).length ≤ (s.dropWhile isPyWs).length := by
  unfold pyStrip
  rw [List.length_reverse]
  calc ((s.dropWhile isPyWs).reverse.dropWhile isPyWs).length
      ≤ (s.dropWhile isPyWs).reverse.length := dropWhile_length_le _ _
    _ = (s.dropWhile isPyWs).length := List.length_reverse _

theorem not_of_dropWhile_cons_eq {f : Char → Bool} {c : Char} {t : Str}
    (h : (c :: t).dropWhile f = c :: t) : f c = false := by
  by_contra hc
  rw [Bool.not_eq_false] at hc
  rw [List.dropWhile_cons, if_pos (by simp [hc])] at h
  have hlen := dropWhile_length_le f t
  rw [h] at hlen
  simp only [List.length_cons] at hlen
  omega

theorem head_not_ws_of_pyStrip_eq {c : Char} {t : Str}
    (h : pyStrip (c :: t) = c :: t) : isPyWs c = false := by
  by_contra hc
  rw [Bool.not_eq_false] at hc
  have h1 : (c :: t).dropWhile isPyWs = t.dropWhile isPyWs := by
    rw [List.dropWhile_cons, if_pos (by simp [hc])]
  have h2 : (pyStrip (c :: t)).length ≤ t.length := by
    calc (pyStrip (c :: t)).length
        ≤ ((c :: t).dropWhile isPyWs).length := length_pyStrip_le_dropWhile _
      _ = (t.dropWhile isPyWs).length := by rw [h1]
      _ ≤ t.length := dropWhile_length_le _ _
  rw [h] at h2
  simp at h2

theorem last_not_ws_of_pyStrip_eq {c d : Char} {t q : Str}
    (h : pyStrip (c :: t) = c :: t) (hrev : (c :: t).reverse = d :: q) :
    isPyWs d = false := by
  have hc := head_not_ws_of_pyStrip_eq h
  have h1 : (c :: t).dropWhile isPyWs = c :: t := by
    rw [List.dropWhile_cons, if_neg (by simp [hc])]
  have h2 : ((c :: t).reverse.dropWhile isPyWs).reverse = c :: t := by
    have h' := h
    unfold pyStrip at h'
    rw [h1] at h'
    exact h'
  have h3 : (c :: t).reverse.dropWhile isPyWs = (c :: t).reverse := by
    have h4 := congrArg List.reverse h2
    simpa using h4
  rw [hrev] at h3
  exact not_of_dropWhile_cons_eq h3

theorem subseg_pyStrip {p s : Str} (hp : p ≠ []) (htrim : pyStrip p = p)
    (h : SubSeg p s) : SubSeg p (pyStrip s) := by
  obtain ⟨c, t, rfl⟩ := List.exists_cons_of_ne_nil hp
  have hc : isPyWs c = false := head_not_ws_of_pyStrip_eq htrim
  have h1 : SubSeg (c :: t) (s.dropWhile isPyWs) := subseg_dropWhile hc h
  have h2 := subseg_reverse h1
  obtain ⟨d, q, hdq⟩ := List.exists_cons_of_ne_nil (show ((c :: t).reverse : Str) ≠ [] by simp)
  have hd : isPyWs d = false := last_not_ws_of_pyStrip_eq htrim hdq
  rw [hdq] at h2
  have h3 := subseg_dropWhile hd h2
  have h4 := subseg_reverse h3
  have h5 : ((d :: q).reverse : Str) = c :: t := by
    rw [← hdq, List.reverse_reverse]
  rw [h5] at h4
  simpa [pyStrip] using h4

theorem pyStrip_ne_nil_of_subseg {p s : Str} (hp : p ≠ []) (htrim : pyStrip p = p)
    (h : SubSeg p s) : pyStrip s ≠ [] := by
  intro hnil
  have h' := subseg_pyStrip hp htrim h
  rw [hnil] at h'
  exact hp (subseg_nil h')

theorem chunkLoop_mem_mono (sz ov : Int) (sep : Str) :
    ∀ (paras : List Str) (cc : Str) (cs : Nat) (chunks : List TextChunk) (c : TextChunk),
      c ∈ chunks → c ∈ chunkLoop sz ov sep paras cc cs chunks := by
  intro paras
  induction paras with
  | nil =>
    intro cc cs chunks c hc
    simp only [chunkLoop]
    split
    · exact hc
    · exact List.mem_append_left _ hc
  | cons para rest ih =>
    intro cc cs chunks c hc
    simp only [chunkLoop]
    split
    · exact ih _ _ _ _ (List.mem_append_left _ hc)
    · exact ih _ _ _ _ hc

theorem chunkLoop_spanOk (sz ov : Int) (sep : Str) :
    ∀ (paras : List Str) (cc : Str) (cs : Nat) (chunks : List TextChunk),
      (∀ c ∈ chunks, ∃ buf : Str, c.text = pyStrip buf ∧ c.end' = c.start + buf.length) →
      ∀ c ∈ chunkLoop sz ov sep paras cc cs chunks,
        ∃ buf : Str, c.text = pyStrip buf ∧ c.end' = c.start + buf.length := by
  intro paras
  induction paras with
  | nil =>
    intro cc cs chunks h c hc
    simp only [chunkLoop] at hc
    split at hc
    · exact h c hc
    · rcases List.mem_append.mp hc with h1 | h1
      · exact h c h1
      · rcases List.mem_singleton.mp h1 with rfl
        exact ⟨cc, rfl, rfl⟩
  | cons para rest ih =>
    intro cc cs chunks h c hc
    simp only [chunkLoop] at hc
    split at hc
    · refine ih _ _ _ ?_ c hc
      intro c' hc'
      rcases List.mem_append.mp hc' with h1 | h1
      · exact h c' h1
      · rcases List.mem_singleton.mp h1 with rfl
        exact ⟨cc, rfl, rfl⟩
    · exact ih _ _ _ h c hc

theorem chunkLoop_indices (sz ov : Int) (sep : Str) :
    ∀ (paras : List Str) (cc : Str) (cs : Nat) (chunks : List TextChunk),
      chunks.map TextChunk.index = List.range chunks.length →
      (chunkLoop sz ov sep paras cc cs chunks).map TextChunk.index =
        List.range (chunkLoop sz ov sep paras cc cs chunks).length := by
  intro paras
  induction paras with
  | nil =>
    intro cc cs chunks h
    simp only [chunkLoop]
    split
    · exact h
    · simp [h, List.range_succ]
  | cons para rest ih =>
    intro cc cs chunks h
    simp only [chunkLoop]
    split
    · exact ih _ _ _ (by simp [h, List.range_succ])
    · exact ih _ _ _ h

theorem chunkLoop_length_le (sz ov : Int) (sep : Str) :
    ∀ (paras : List Str) (cc : Str) (cs : Nat) (chunks : List TextChunk),
      (chunkLoop sz ov sep paras cc cs chunks).length ≤ chunks.length + paras.length + 1 := by
  intro paras
  induction paras with
  | nil =>
    intro cc cs chunks
    simp only [chunkLoop]
    split
    · simp
    · simp
  | cons para rest ih =>
    intro cc cs chunks
    simp only [chunkLoop]
    split
    · refine le_trans (ih _ _ _) ?_
      simp only [List.length_append, List.length_cons, List.length_nil]
      omega
    · refine le_trans (ih _ _ _) ?_
      simp only [List.length_cons]
      omega

theorem chunkLoop_chain (sz ov : Int) (sep : Str) (P : List Str) :
    ∀ (paras : List Str) (cc : Str) (cs : Nat) (chunks : List TextChunk),
      (∀ p ∈ paras, p ∈ P) →
      List.Chain' (fun c c' => ∃ para ∈ P, c'.start = c.start + sep.length + para.length) chunks →
      (∀ c, chunks.getLast? = some c → ∃ para ∈ P, cs = c.start + sep.length + para.length) →
      List.Chain' (fun c c' => ∃ para ∈ P, c'.start = c.start + sep.length + para.length)
        (chunkLoop sz ov sep paras cc cs chunks) := by
  intro paras
  induction paras with
  | nil =>
    intro cc cs chunks hP hch hlink
    simp only [chunkLoop]
    split
    · exact hch
    · refine List.chain'_append.mpr ⟨hch, List.chain'_singleton _, ?_⟩
      intro x hx y hy
      simp only [List.head?_cons, Option.mem_def, Option.some.injEq] at hy
      obtain ⟨para, hpa, hcs⟩ := hlink x (by simpa [Option.mem_def] using hx)
      exact ⟨para, hpa, by simp [← hy, hcs]⟩
  | cons para rest ih =>
    intro cc cs chunks hP hch hlink
    simp only [chunkLoop]
    split
    · refine ih _ _ _ (fun p hp => hP p (List.mem_cons_of_mem _ hp)) ?_ ?_
      · refine List.chain'_append.mpr ⟨hch, List.chain'_singleton _, ?_⟩
        intro x hx y hy
        simp only [List.head?_cons, Option.mem_def, Option.some.injEq] at hy
        obtain ⟨para', hpa, hcs⟩ := hlink x (by simpa [Option.mem_def] using hx)
        exact ⟨para', hpa, by simp [← hy, hcs]⟩
      · intro c hc
        rw [List.getLast?_concat] at hc
        obtain rfl : (⟨pyStrip cc, chunks.length, cs, cs + cc.length⟩ : TextChunk) = c :=
          Option.some.inj hc
        refine ⟨para, hP para (List.mem_cons_self _ _), ?_⟩
        simp only [List.length_append]
        omega
    · exact ih _ _ _ (fun p hp => hP p (List.mem_cons_of_mem _ hp)) hch hlink

theorem chunkLoop_subseg (sz ov : Int) (sep : Str) :
    ∀ (paras : List Str) (cc : Str) (cs : Nat) (chunks : List TextChunk) (p : Str),
      p ≠ [] → pyStrip p = p → SubSeg p cc →
      ∃ c ∈ chunkLoop sz ov sep paras cc cs chunks, SubSeg p c.text := by
  intro paras
  induction paras with
  | nil =>
    intro cc cs chunks p hp htrim hsub
    simp only [chunkLoop]
    rw [if_neg (pyStrip_ne_nil_of_subseg hp htrim hsub)]
    exact ⟨⟨pyStrip cc, chunks.length, cs, cs + cc.length⟩,
      List.mem_append_right _ (by simp), subseg_pyStrip hp htrim hsub⟩
  | cons para rest ih =>
    intro cc cs chunks p hp htrim hsub
    simp only [chunkLoop]
    split
    · exact ⟨⟨pyStrip cc, chunks.length, cs, cs + cc.length⟩,
        chunkLoop_mem_mono sz ov sep rest _ _ _ _ (List.mem_append_right _ (by simp)),
        subseg_pyStrip hp htrim hsub⟩
    · have hcc : cc ≠ [] := by
        intro h0
        rw [h0] at hsub
        exact hp (subseg_nil hsub)
      rw [if_neg hcc]
      exact ih _ _ _ p hp htrim (subseg_append_right _ (subseg_append_right _ hsub))

theorem chunkLoop_para_lands (sz ov : Int) (sep : Str) :
    ∀ (paras : List Str) (cc : Str) (cs : Nat) (chunks : List TextChunk) (p : Str),
      p ∈ paras → p ≠ [] → pyStrip p = p →
      ∃ c ∈ chunkLoop sz ov sep paras cc cs chunks, SubSeg p c.text := by
  intro paras
  induction paras with
  | nil =>
    intro _ _ _ p hmem
    exact absurd hmem (List.not_mem_nil p)
  | cons para rest ih =>
    intro cc cs chunks p hmem hp htrim
    simp only [chunkLoop]
    rcases List.mem_cons.mp hmem with rfl | hmem'
    · split
      · exact chunkLoop_subseg sz ov sep rest _ _ _ p hp htrim
          (subseg_append_left _ (subseg_self p))
      · split
        · exact chunkLoop_subseg sz ov sep rest _ _ _ p hp htrim (subseg_self p)
        · exact chunkLoop_subseg sz ov sep rest _ _ _ p hp htrim
            (subseg_append_left _ (subseg_self p))
    · split
      · exact ih _ _ _ p hmem' hp htrim
      · exact ih _ _ _ p hmem' hp htrim

theorem chunk_text_ok_eq {text : Str} {sz ov : Int} {sep : Str} {l : List TextChunk}
    (htext : text ≠ []) (hsep : sep ≠ [])
    (h : chunk_text text sz ov sep = .ok l) :
    l = chunkLoop sz ov sep (pySplit sep text) [] 0 [] := by
  unfold chunk_text at h
  rw [if_neg htext, if_neg hsep] at h
  exact (Except.ok.inj h).symm

/-- C6: for every non-empty text and every chunk_size ≥ 1 (any chunk_overlap
and separator), the list returned by chunk_text has chunks whose index values
are exactly 0, 1, ..., len(result)-1 in production order, with no gaps,
duplicates, or reordering. -/
theorem chunk_text_index_density :
    ∀ (text : Str) (chunk_size chunk_overlap : Int) (separator : Str) (l : List TextChunk),
      text ≠ [] → 1 ≤ chunk_size →
      chunk_text text chunk_size chunk_overlap separator = .ok l →
      l.map TextChunk.index = List.range l.length := by
  intro text sz ov sep l htext hsz h
  by_cases hsep : sep = []
  · subst hsep
    unfold chunk_text at h
    rw [if_neg htext] at h
    simp at h
  · rw [chunk_text_ok_eq htext hsep h]
    exact chunkLoop_indices sz ov sep _ _ _ _ (by simp)

/-- Witness for C6: chunk_text "ab" with chunk_size 1, overlap 0, separator
"|" yields one chunk, with index sequence [0] = range 1. -/
theorem chunk_text_index_density_witness :
    [(⟨strL "ab", 0, 0, 2⟩ : TextChunk)].map TextChunk.index =
      List.range [(⟨strL "ab", 0, 0, 2⟩ : TextChunk)].length :=
  chunk_text_index_density (strL "ab") 1 0 (strL "|") _ (by decide) (by decide) (by decide)

/-- C7: for every chunk produced by chunk_text (any text, chunk_size ≥ 1,
chunk_overlap ≥ 0, separator), the recorded metadata satisfies
metadata.start ≤ metadata.end. -/
theorem chunk_text_start_le_end :
    ∀ (text : Str) (chunk_size chunk_overlap : Int) (separator : Str) (l : List TextChunk),
      1 ≤ chunk_size → 0 ≤ chunk_overlap →
      chunk_text text chunk_size chunk_overlap separator = .ok l →
      ∀ c ∈ l, c.start ≤ c.end' := by
  intro text sz ov sep l hsz hov h c hc
  by_cases htext : text = []
  · subst htext
    unfold chunk_text at h
    simp at h
    subst h
    cases hc
  · by_cases hsep : sep = []
    · subst hsep
      unfold chunk_text at h
      rw [if_neg htext] at h
      simp at h
    · rw [chunk_text_ok_eq htext hsep h] at hc
      obtain ⟨buf, -, hend⟩ := chunkLoop_spanOk sz ov sep _ _ _ _ (by simp) c hc
      omega

/-- Witness for C7: the single chunk of chunk_text "ab" (chunk_size 2,
overlap 1, separator "|") has start 0 ≤ end 2. -/
theorem chunk_text_start_le_end_witness :
    (⟨strL "ab", 0, 0, 2⟩ : TextChunk).start ≤ (⟨strL "ab", 0, 0, 2⟩ : TextChunk).end' :=
  chunk_text_start_le_end (strL "ab") 2 1 (strL "|") [⟨strL "ab", 0, 0, 2⟩]
    (by decide) (by decide) (by decide) ⟨strL "ab", 0, 0, 2⟩ (by decide)

/-- C2 (amended): each chunk's end offset equals its start plus the length of
the UNSTRIPPED buffer at flush time (its text being the stripped buffer); and
between consecutive flushes the start cursor advances by the separator length
plus the length of the piece processed at the earlier flush — i.e. by the
length of the re-initialized buffer minus the carried overlap — NOT by the
previous buffer's overlap-adjusted length as the claim stated. -/
theorem chunk_text_offsets :
    ∀ (text : Str) (chunk_size chunk_overlap : Int) (separator : Str) (l : List TextChunk),
      1 ≤ chunk_size → 0 ≤ chunk_overlap →
      chunk_text text chunk_size chunk_overlap separator = .ok l →
      (∀ c ∈ l, ∃ buf : Str, c.text = pyStrip buf ∧ c.end' = c.start + buf.length) ∧
      List.Chain' (fun c c' => ∃ para ∈ pySplit separator text,
        c'.start = c.start + separator.length + para.length) l := by
  intro text sz ov sep l hsz hov h
  by_cases htext : text = []
  · subst htext
    unfold chunk_text at h
    simp at h
    subst h
    exact ⟨by simp, by simp⟩
  · by_cases hsep : sep = []
    · subst hsep
      unfold chunk_text at h
      rw [if_neg htext] at h
      simp at h
    · rw [chunk_text_ok_eq htext hsep h]
      refine ⟨chunkLoop_spanOk sz ov sep _ _ _ _ (by simp), ?_⟩
      refine chunkLoop_chain sz ov sep (pySplit sep text) _ _ _ _ (fun p hp => hp)
        List.chain'_nil ?_
      intro c hc
      simp at hc

/-- Witness for C2 at text "aaaa\n\nbbbb\n\ncccc", chunk_size 5, overlap 0,
separator "\n\n". -/
theorem chunk_text_offsets_witness :
    (∀ c ∈ [(⟨strL "aaaa", 0, 0, 4⟩ : TextChunk), ⟨strL "bbbb", 1, 6, 12⟩,
        ⟨strL "cccc", 2, 12, 18⟩],
        ∃ buf : Str, c.text = pyStrip buf ∧ c.end' = c.start + buf.length) ∧
      List.Chain' (fun c c' => ∃ para ∈ pySplit (strL "\n\n") (strL "aaaa\n\nbbbb\n\ncccc"),
        c'.start = c.start + (strL "\n\n").length + para.length)
        [(⟨strL "aaaa", 0, 0, 4⟩ : TextChunk), ⟨strL "bbbb", 1, 6, 12⟩,
          ⟨strL "cccc", 2, 12, 18⟩] :=
  chunk_text_offsets (strL "aaaa\n\nbbbb\n\ncccc") 5 0 (strL "\n\n") _
    (by decide) (by decide) (by decide)

/-- C2 counterexample: at text "aaaa\n\nbbbb\n\ncccc" with chunk_size 5,
chunk_overlap 0 and separator "\n\n", the first flushed chunk records
start 0 and end 4 — an unstripped buffer ("aaaa") of length 4 with no overlap
carried — yet the second chunk's start is 6 ≠ 0 + (4 - 0) - 0: the start
cursor does not advance by the previous buffer's overlap-adjusted length
(the source updates current_start from the length of the re-initialized
buffer, reassigned one line earlier). -/
theorem chunk_text_offsets_counterexample :
    chunk_text (strL "aaaa\n\nbbbb\n\ncccc") 5 0 (strL "\n\n") =
      .ok [⟨strL "aaaa", 0, 0, 4⟩, ⟨strL "bbbb", 1, 6, 12⟩, ⟨strL "cccc", 2, 12, 18⟩] ∧
    (6 : Nat) ≠ 0 + (4 - 0) - 0 := by decide

/-- C8 (amended): every separator-delimited piece longer than chunk_size that
equals its own whitespace strip appears whole — never cut internally — inside
a single emitted chunk.  (The amendment excludes pieces with leading or
trailing whitespace: the chunk-level strip can remove that edge whitespace,
and an all-whitespace oversized piece can vanish entirely, see the
counterexample.) -/
theorem chunk_text_oversized_whole :
    ∀ (text : Str) (chunk_size chunk_overlap : Int) (separator : Str) (l : List TextChunk)
      (para : Str),
      1 ≤ chunk_size →
      chunk_text text chunk_size chunk_overlap separator = .ok l →
      para ∈ pySplit separator text →
      chunk_size < (para.length : Int) →
      pyStrip para = para →
      ∃ c ∈ l, SubSeg para c.text := by
  intro text sz ov sep l para hsz h hmem hlong htrim
  have hp : para ≠ [] := by
    intro h0
    rw [h0] at hlong
    simp at hlong
    omega
  by_cases htext : text = []
  · subst htext
    have hnil : para = [] := by
      simpa [pySplit, splitFuel, splitFirst] using hmem
    exact absurd hnil hp
  · by_cases hsep : sep = []
    · subst hsep
      unfold chunk_text at h
      rw [if_neg htext] at h
      simp at h
    · rw [chunk_text_ok_eq htext hsep h]
      exact chunkLoop_para_lands sz ov sep _ _ _ _ para hmem hp htrim

/-- Witness for C8: with text "aaaaaa\n\nbb", chunk_size 3, overlap 0,
separator "\n\n", the oversized piece "aaaaaa" (length 6 > 3) appears whole
in the first emitted chunk. -/
theorem chunk_text_oversized_whole_witness :
    ∃ c ∈ [(⟨strL "aaaaaa", 0, 0, 6⟩ : TextChunk), ⟨strL "bb", 1, 4, 8⟩],
      SubSeg (strL "aaaaaa") c.text :=
  chunk_text_oversized_whole (strL "aaaaaa\n\nbb") 3 0 (strL "\n\n") _ (strL "aaaaaa")
    (by decide) (by decide) (by decide) (by decide) (by decide)

/-- C8 counterexample: with text "  " (two spaces), chunk_size 1, overlap 0
and separator "|", the single separator-delimited piece "  " has length
2 > 1, yet chunk_text emits NO chunk at all (the final buffer strips to
empty and is dropped), so the oversized piece appears whole in no emitted
chunk. -/
theorem chunk_text_oversized_counterexample :
    chunk_text (strL "  ") 1 0 (strL "|") = .ok [] ∧
    pySplit (strL "|") (strL "  ") = [strL "  "] ∧
    (1 : Int) < ((strL "  ").length : Int) := by decide

/-- C10 (amended): chunk_text always terminates; whenever the separator is
non-empty (or the text is empty, which short-circuits), it returns a finite
list with at most one chunk per separator-split piece plus one final chunk.
(For a non-empty text with an empty separator, Python's str.split raises
ValueError before the loop — see the counterexample — so no list is
returned there, though there is still no infinite loop.) -/
theorem chunk_text_terminates_bound :
    ∀ (text : Str) (chunk_size chunk_overlap : Int) (separator : Str),
      separator ≠ [] ∨ text = [] →
      ∃ l, chunk_text text chunk_size chunk_overlap separator = .ok l ∧
        l.length ≤ (pySplit separator text).length + 1 := by
  intro text sz ov sep hgood
  by_cases htext : text = []
  · subst htext
    refine ⟨[], by unfold chunk_text; simp, by simp⟩
  · rcases hgood with hsep | h0
    · refine ⟨chunkLoop sz ov sep (pySplit sep text) [] 0 [], ?_, ?_⟩
      · unfold chunk_text
        rw [if_neg htext, if_neg hsep]
      · have hb := chunkLoop_length_le sz ov sep (pySplit sep text) [] 0 []
        simpa using hb
    · exact absurd h0 htext

/-- Witness for C10: text "a", chunk_size 5, overlap 0, separator "|". -/
theorem chunk_text_terminates_bound_witness :
    ∃ l, chunk_text (strL "a") 5 0 (strL "|") = .ok l ∧
      l.length ≤ (pySplit (strL "|") (strL "a")).length + 1 :=
  chunk_text_terminates_bound (strL "a") 5 0 (strL "|") (Or.inl (by decide))

/-- C10 counterexample: for a non-empty text with the empty separator, the
source raises (Python `"a".split("")` is `ValueError: empty separator`,
reached before any loop), so chunk_text does not return a list for that
parameter choice — it terminates exceptionally instead. -/
theorem chunk_text_empty_sep_counterexample :
    chunk_text (strL "a") 1000 200 (strL "") = .error (strL "empty separator") := by decide

theorem processFile_total (r : BatchResult) (j : FileJob) :
    (processFile r j).total = r.total := by
  rcases j with ⟨p, conv, prog⟩
  cases conv <;> cases prog <;> rfl

theorem foldl_processFile_total :
    ∀ (jobs : List FileJob) (r : BatchResult),
      (jobs.foldl processFile r).total = r.total := by
  intro jobs
  induction jobs with
  | nil => intro r; rfl
  | cons j rest ih =>
    intro r
    rw [List.foldl_cons, ih, processFile_total]

theorem foldl_processFile_success_failed :
    ∀ (jobs : List FileJob) (r : BatchResult),
      (∀ j ∈ jobs, j.on_progress = .ok) →
      (jobs.foldl processFile r).success + (jobs.foldl processFile r).failed =
        r.success + r.failed + jobs.length := by
  intro jobs
  induction jobs with
  | nil => intro r _; simp
  | cons j rest ih =>
    intro r hok
    rw [List.foldl_cons]
    have hj : j.on_progress = .ok := hok j (List.mem_cons_self _ _)
    rw [ih (processFile r j) (fun j' hj' => hok j' (List.mem_cons_of_mem _ hj'))]
    rcases j with ⟨p, conv, prog⟩
    simp only at hj
    subst hj
    cases conv with
    | ok =>
      simp only [processFile, List.length_cons]
      omega
    | raises m =>
      simp only [processFile, List.length_cons]
      omega

theorem mem_dictSet {d : List (Str × Str)} {k v : Str} {e : Str × Str}
    (h : e ∈ dictSet d k v) : e.1 = k ∨ e ∈ d := by
  unfold dictSet at h
  split at h
  · obtain ⟨p, hp, hpe⟩ := List.mem_map.mp h
    by_cases hk : p.1 = k
    · rw [if_pos hk] at hpe
      left
      rw [← hpe]
    · rw [if_neg hk] at hpe
      right
      rw [← hpe]
      exact hp
  · rcases List.mem_append.mp h with h1 | h1
    · exact Or.inr h1
    · rcases List.mem_singleton.mp h1 with rfl
      exact Or.inl rfl

theorem foldl_processFile_err_keys :
    ∀ (jobs : List FileJob) (r : BatchResult),
      (∀ j ∈ jobs, j.on_progress = .ok) →
      ∀ e ∈ (jobs.foldl processFile r).errors,
        e ∈ r.errors ∨ ∃ j ∈ jobs, j.path = e.1 ∧ j.conv ≠ .ok := by
  intro jobs
  induction jobs with
  | nil =>
    intro r _ e he
    exact Or.inl he
  | cons j rest ih =>
    intro r hok e he
    rw [List.foldl_cons] at he
    rcases ih (processFile r j) (fun j' hj' => hok j' (List.mem_cons_of_mem _ hj')) e he
      with h1 | h1
    · have hj : j.on_progress = .ok := hok j (List.mem_cons_self _ _)
      rcases j with ⟨p, conv, prog⟩
      simp only at hj
      subst hj
      cases conv with
      | ok =>
        exact Or.inl (by simpa [processFile] using h1)
      | raises m =>
        have h2 : e ∈ dictSet r.errors p m := by simpa [processFile] using h1
        rcases mem_dictSet h2 with h3 | h3
        · exact Or.inr ⟨⟨p, .raises m, .ok⟩, List.mem_cons_self _ _, h3.symm, by simp⟩
        · exact Or.inl h3
    · obtain ⟨j', hj', hcond⟩ := h1
      exact Or.inr ⟨j', List.mem_cons_of_mem _ hj', hcond⟩

/-- C3 (amended): for job lists with pairwise-distinct file paths (as a
directory listing produces) whose progress callback never raises, the
returned BatchResult satisfies success + failed ≤ total, and the error keys
are disjoint from the successfully converted files.  (The amendment is
forced by the counterexample: the source calls the progress callback inside
the per-file `try` AFTER incrementing `success`, so a raising callback makes
the same file count as both a success and a failure.) -/
theorem batch_convert_tally :
    ∀ jobs : List FileJob,
      (∀ j ∈ jobs, j.on_progress = .ok) →
      (jobs.map FileJob.path).Nodup →
      (batch_convert jobs).success + (batch_convert jobs).failed ≤ (batch_convert jobs).total ∧
      ∀ e ∈ (batch_convert jobs).errors, ∀ j ∈ jobs, j.conv = .ok → e.1 ≠ j.path := by
  intro jobs hok hnd
  constructor
  · unfold batch_convert
    rw [foldl_processFile_success_failed jobs _ hok, foldl_processFile_total]
    simp
  · intro e he j hj hconv heq
    unfold batch_convert at he
    rcases foldl_processFile_err_keys jobs _ hok e he with h1 | h1
    · simp at h1
    · obtain ⟨jf, hjf, hpath, hfail⟩ := h1
      have hje : jf = j := by
        apply List.inj_on_of_nodup_map hnd hjf hj
        rw [hpath, heq]
      rw [hje] at hfail
      exact hfail hconv

/-- Witness for C3: two distinct files, the first converting fine and the
second raising, with a callback that never raises. -/
theorem batch_convert_tally_witness :
    (batch_convert [⟨strL "a", .ok, .ok⟩, ⟨strL "b", .raises (strL "x"), .ok⟩]).success +
        (batch_convert [⟨strL "a", .ok, .ok⟩, ⟨strL "b", .raises (strL "x"), .ok⟩]).failed ≤
      (batch_convert [⟨strL "a", .ok, .ok⟩, ⟨strL "b", .raises (strL "x"), .ok⟩]).total ∧
    ∀ e ∈ (batch_convert [⟨strL "a", .ok, .ok⟩, ⟨strL "b", .raises (strL "x"), .ok⟩]).errors,
      ∀ j ∈ [(⟨strL "a", .ok, .ok⟩ : FileJob), ⟨strL "b", .raises (strL "x"), .ok⟩],
        j.conv = .ok → e.1 ≠ j.path :=
  batch_convert_tally _ (by decide) (by decide)

/-- C3 counterexample: one file whose conversion succeeds but whose progress
callback raises is tallied BOTH as a success and as a failure — the result
is total 1, success 1, failed 1, so success + failed = 2 > 1 = total — and
its path (that of a successfully converted file) is an errors key. -/
theorem batch_convert_tally_counterexample :
    batch_convert [⟨strL "a.hwp", .ok, .raises (strL "boom")⟩] =
      ⟨1, 1, 1, [(strL "a.hwp", strL "boom")]⟩ ∧
    1 + 1 > 1 := by decide

/-- C4: batch_convert catches every error raised while processing one file —
it increments failed by one and records the error message in errors keyed by
that file's path — and, being a plain left fold, continues with the remaining
files without ever propagating a per-file error; in particular, for 3
matched files of which exactly the second raises "boom" during conversion,
the result has total 3, failed 1, and errors containing exactly the one
entry keyed by the failing file's path. -/
theorem batch_convert_partial_failure :
    (∀ (r : BatchResult) (j : FileJob) (m : Str), j.conv = .raises m →
      processFile r j =
        { r with failed := r.failed + 1, errors := dictSet r.errors j.path m }) ∧
    (∀ (pre post : List FileJob) (j : FileJob) (r : BatchResult),
      (pre ++ j :: post).foldl processFile r =
        post.foldl processFile (processFile (pre.foldl processFile r) j)) ∧
    batch_convert [⟨strL "a", .ok, .ok⟩, ⟨strL "b", .raises (strL "boom"), .ok⟩,
        ⟨strL "c", .ok, .ok⟩] = ⟨3, 2, 1, [(strL "b", strL "boom")]⟩ := by
  refine ⟨?_, ?_, by decide⟩
  · intro r j m hj
    simp [processFile, hj]
  · intro pre post j r
    rw [List.foldl_append, List.foldl_cons]

/-- Witness for C4: a file raising "e" on conversion, processed from a state
that already saw one success. -/
theorem batch_convert_partial_failure_witness :
    processFile ⟨3, 1, 0, []⟩ ⟨strL "b", .raises (strL "e"), .ok⟩ =
      ⟨3, 1, 0 + 1, dictSet [] (strL "b") (strL "e")⟩ :=
  batch_convert_partial_failure.1 ⟨3, 1, 0, []⟩ ⟨strL "b", .raises (strL "e"), .ok⟩
    (strL "e") rfl

/-- C9: success_rate equals success divided by total when total > 0, and 0
when total = 0; in particular BatchResult(total=10, success=8, failed=2) has
success_rate 0.8 and the default BatchResult has success_rate 0.0.  (Python
float division is modelled as exact rational division; both probe values are
exactly representable comparisons in the source.) -/
theorem success_rate_spec :
    (∀ r : BatchResult, 0 < r.total → success_rate r = (r.success : ℚ) / (r.total : ℚ)) ∧
    (∀ r : BatchResult, r.total = 0 → success_rate r = 0) ∧
    success_rate ⟨10, 8, 2, []⟩ = 0.8 ∧
    success_rate ⟨0, 0, 0, []⟩ = 0 := by
  refine ⟨?_, ?_, by norm_num [success_rate], by norm_num [success_rate]⟩
  · intro r h
    unfold success_rate
    rw [if_pos h]
  · intro r h
    unfold success_rate
    rw [if_neg (by omega)]

/-- Witness for C9 at BatchResult(total=10, success=8, failed=2) and the
default BatchResult. -/
theorem success_rate_spec_witness :
    success_rate ⟨10, 8, 2, []⟩ = ((8 : ℕ) : ℚ) / ((10 : ℕ) : ℚ) ∧
    success_rate ⟨0, 0, 0, []⟩ = 0 :=
  ⟨success_rate_spec.1 ⟨10, 8, 2, []⟩ (by decide),
   success_rate_spec.2.1 ⟨0, 0, 0, []⟩ rfl⟩

theorem renderLines_pos :
    ∀ (data : List (List Cell)) (i : Nat), i ≠ 0 → renderLines i data = specTail data := by
  intro data
  induction data with
  | nil => intro i _; rfl
  | cons row rest ih =>
    intro i hi
    simp only [renderLines, specTail]
    by_cases hr : row = []
    · rw [if_pos hr, if_pos hr]
      exact ih (i + 1) (by omega)
    · rw [if_neg hr, if_neg hr, if_neg hi, ih (i + 1) (by omega)]

theorem renderLines_zero (data : List (List Cell)) :
    renderLines 0 data = specLines data := by
  cases data with
  | nil => rfl
  | cons row rest =>
    simp only [renderLines, specLines]
    by_cases hr : row = []
    · rw [if_pos hr, if_pos hr]
      exact renderLines_pos rest 1 (by omega)
    · rw [if_neg hr, if_neg hr, if_pos trivial, renderLines_pos rest 1 (by omega)]

/-- C5 (amended): the Table Flattener returns the empty string for a table
with no rows; otherwise each non-empty row is rendered as "| c1 | c2 | ... |"
where every cell contributes its extracted text (or a single space when the
text is empty) followed by colspan−1 additional single-space placeholder
cells, and a separator row of one "---" per column of the first row is
inserted immediately after the first row exactly when that first row is
non-empty — the amendment: when the table's FIRST tr has no cells, the first
rendered row is a later row and no separator row is inserted at all.  In
particular a row of one cell with colspan 2 and text "x" flattens to the two
cells "x" and " ". -/
theorem parse_table_spec :
    (∀ table : Node,
      parse_table_to_markdown table =
        (let rows := findAllIn (fun t => t = strL "tr") table
         if rows.isEmpty then []
         else joinSep ['\n'] (specLines (rows.map rowData)))) ∧
    cellTexts [(strL "x", 1, 2)] = [strL "x", [' ']] ∧
    parse_table_to_markdown
      (.elem (strL "table") [] (nlOf [.elem (strL "tr") [] (nlOf
        [.elem (strL "td") [(strL "colspan", 2)] (nlOf [.text (strL "x")])])])) =
      strL "| x |   |\n|---|---|" := by
  refine ⟨?_, by decide, by decide⟩
  intro table
  unfold parse_table_to_markdown
  cases h : findAllIn (fun t => t = strL "tr") table with
  | nil => rfl
  | cons r rs => simp [renderLines_zero]

/-- C5 counterexample: a table whose first tr has no cells and whose second
tr holds the single cell "x" flattens to the single line "| x |": the first
rendered row is not followed by any "---" separator row (the source emits
the separator only after the row at enumerate-index 0, which was skipped as
empty), contradicting the claim's "immediately after the first rendered row
a separator row ... is inserted". -/
theorem parse_table_sep_counterexample :
    parse_table_to_markdown
      (.elem (strL "table") [] (nlOf [
        .elem (strL "tr") [] (nlOf []),
        .elem (strL "tr") [] (nlOf [.elem (strL "td") [] (nlOf [.text (strL "x")])])])) =
      strL "| x |" ∧
    containsSeg (strL "---")
      (parse_table_to_markdown
        (.elem (strL "table") [] (nlOf [
          .elem (strL "tr") [] (nlOf []),
          .elem (strL "tr") [] (nlOf
            [.elem (strL "td") [] (nlOf [.text (strL "x")])])]))) = false := by decide

/-- C1 (code bug): the HTML-to-rich-text conversion inserts each placeholder
with the table's 0-based index among ALL tables (`enumerate(tables)`), but
re-substitutes placeholders indexed over the NON-EMPTY markdown list only
(`enumerate(table_markdowns)`).  For a document with a row-less table
followed by a table with one row "x": the second table's flattened block
"| x |\n|---|" is non-empty, its placeholder __TABLE_1__ is inserted, yet
the substitution loop only looks for __TABLE_0__, so __TABLE_1__ is never
replaced by the flattened block and the inserted marker survives in the
returned string — contradicting the claim that each non-empty table's
placeholder is replaced and no inserted marker remains. -/
theorem html_to_rich_text_c1_bug :
    parse_table_to_markdown (.elem (strL "table") [] (nlOf [
      .elem (strL "tr") [] (nlOf [.elem (strL "td") [] (nlOf [.text (strL "x")])])])) =
      strL "| x |\n|---|" ∧
    html_to_rich_text (.elem (strL "html") [] (nlOf [
      .elem (strL "body") [] (nlOf [
        .text (strL "hello"),
        .elem (strL "table") [] (nlOf []),
        .elem (strL "table") [] (nlOf [
          .elem (strL "tr") [] (nlOf [.elem (strL "td") [] (nlOf [.text (strL "x")])])]),
        .text (strL "bye")])])) = strL "hello\n__TABLE_1__\nbye" ∧
    containsSeg (phStr 1) (strL "hello\n__TABLE_1__\nbye") = true := by decide

end HwpParser
